import Mathlib

/- Verification of the media signal acquisition and synchronization engine of
the Bard media-player front-end: the lyric synchronizer (src/lyrics.rs), the
waveform extractor (src/waveform.rs), the spectrum stream supervisor's
configuration generation and shutdown path (src/cava.rs), and the color
palette extractor (src/color_extractor.rs).

The Rust code is shallowly embedded: `f64` values produced by exact
arithmetic are modelled as `ℚ` (square roots and the power-law response
curve live in `ℝ`), machine integers are `ℕ`/`ℤ` with explicit wrapping
where it matters, strings are `List Char`, and the subprocess shutdown path
is modelled by explicit state passing with an oracle choosing which OS calls
fail. -/

set_option maxHeartbeats 1000000

namespace Bard

/-! ### Lyric synchronizer (src/lyrics.rs) -/

/-- One parsed lyric line (`LyricLine` in src/lyrics.rs): a timestamp in
seconds (`f64` modelled as `ℚ`) and the line's text. -/
structure LyricLine where
  timestamp : ℚ
  text : List Char
deriving DecidableEq

/-- Whitespace test used by Rust's `str::trim`. -/
def isWS (c : Char) : Bool := c.isWhitespace

/-- Rust's `str::trim`: drop leading and trailing whitespace. -/
def trimChars (cs : List Char) : List Char :=
  ((cs.dropWhile isWS).reverse.dropWhile isWS).reverse

/-- Maximal leading digit run and the remaining characters, as matched by a
greedy `\d+` in the lyric timestamp regular expression. -/
def takeDigits (cs : List Char) : List Char × List Char :=
  (cs.takeWhile Char.isDigit, cs.dropWhile Char.isDigit)

/-- Attempt to match `\[(\d+):(\d+\.\d+)\](.*)` at the current position.
Returns the three captured digit runs (minutes, integral seconds, fractional
seconds) and the rest of the line after `]`.  Shrinking a greedy digit run
only ever exposes another digit where `:`/`.`/`]` is required, so the greedy
maximal-run match is the only possible match at a given start position. -/
def matchAt : List Char → Option (List Char × List Char × List Char × List Char)
  | '[' :: rest =>
    let p1 := takeDigits rest
    if p1.1 = [] then none
    else
      match p1.2 with
      | ':' :: r2 =>
        let p2 := takeDigits r2
        if p2.1 = [] then none
        else
          match p2.2 with
          | '.' :: r4 =>
            let p3 := takeDigits r4
            if p3.1 = [] then none
            else
              match p3.2 with
              | ']' :: r6 => some (p1.1, p2.1, p3.1, r6)
              | _ => none
          | _ => none
      | _ => none
  | _ => none

/-- Leftmost match of the timestamp pattern in a line, as found by
`Regex::captures` in `LRCParser::from_file`. -/
def findMatch : List Char → Option (List Char × List Char × List Char × List Char)
  | [] => none
  | c :: rest =>
    match matchAt (c :: rest) with
    | some r => some r
    | none => findMatch rest

/-- Numeric value of a digit run (the value `str::parse` returns when it
succeeds). -/
def digitsVal (ds : List Char) : ℕ :=
  ds.foldl (fun a c => 10 * a + (c.toNat - 48)) 0

/-- Value of the fractional digit run of the seconds field. -/
def fracVal (ds : List Char) : ℚ :=
  (digitsVal ds : ℚ) / (10 : ℚ) ^ ds.length

/-- Timestamp of a matched line: `minutes as f64 * 60.0 + seconds`. -/
def tsVal (d1 d2 d3 : List Char) : ℚ :=
  (digitsVal d1 : ℚ) * 60 + ((digitsVal d2 : ℚ) + fracVal d3)

/-- The line-processing loop of `LRCParser::from_file` over the file's lines
(before the final sort).  A line with no match is skipped; a matched line
whose minutes field overflows `u32` makes `parse::<u32>` fail, which aborts
the whole file (`.ok()?`).  A matched `\d+\.\d+` seconds field always parses
as an `f64`. -/
def parseLrc : List (List Char) → Option (List LyricLine)
  | [] => some []
  | l :: rest => do
    let tail ← parseLrc rest
    match findMatch l with
    | none => some tail
    | some (d1, d2, d3, txt) =>
      if digitsVal d1 < 2 ^ 32 then
        some (⟨tsVal d1 d2 d3, trimChars txt⟩ :: tail)
      else
        none

/-- `LRCParser::from_file`, from the file's lines onward: parse every line,
then stably sort ascending by timestamp. -/
def lrc_from_file (content : List (List Char)) : Option (List LyricLine) :=
  (parseLrc content).map
    (fun ls => ls.insertionSort (fun a b => a.timestamp ≤ b.timestamp))

/-- The scan of `LRCParser::get_current_line`, carrying the running index:
at each position the current line matches when its timestamp is `≤ t` and
either it is the last line or `t` is strictly before the next timestamp. -/
def get_current_line_aux (t : ℚ) : List LyricLine → ℕ → Option (ℕ × List Char)
  | [], _ => none
  | [l], i => if l.timestamp ≤ t then some (i, l.text) else none
  | l :: l' :: rest, i =>
    if l.timestamp ≤ t ∧ t < l'.timestamp then some (i, l.text)
    else get_current_line_aux t (l' :: rest) (i + 1)

/-- `LRCParser::get_current_line`. -/
def get_current_line (lines : List LyricLine) (t : ℚ) : Option (ℕ × List Char) :=
  get_current_line_aux t lines 0

/-- The track with timestamps `[0.0, 2.0, 5.0]` used by the spec's
`CurrentLine` examples. -/
def exampleTrack : List LyricLine :=
  [⟨0, "a".data⟩, ⟨2, "b".data⟩, ⟨5, "c".data⟩]

/-! ### Waveform extractor (src/waveform.rs) -/

/-- Byte `i` of the decoder's output (`output.stdout`); reads are always
in bounds in `WaveformData::from_file`, the default and the wrap keep the
function total. -/
def byteAt (raw : List ℕ) (i : ℕ) : ℕ := raw.getD i 0 % 256

/-- The unsigned 16-bit little-endian value starting at byte `i`. -/
def u16At (raw : List ℕ) (i : ℕ) : ℕ := byteAt raw i + 256 * byteAt raw (i + 1)

/-- Reinterpret an unsigned 16-bit value as signed (`i16::from_le_bytes`). -/
def toSigned16 (v : ℕ) : ℤ := if v < 32768 then (v : ℤ) else (v : ℤ) - 65536

/-- `left.unsigned_abs()` of frame `f` (bytes `4f, 4f+1` of the stream). -/
def sampleAbsL (raw : List ℕ) (f : ℕ) : ℕ := (toSigned16 (u16At raw (4 * f))).natAbs

/-- `right.unsigned_abs()` of frame `f` (bytes `4f+2, 4f+3`). -/
def sampleAbsR (raw : List ℕ) (f : ℕ) : ℕ :=
  (toSigned16 (u16At raw (4 * f + 2))).natAbs

/-- Sum of squared left-channel magnitudes over `len` frames from `start`. -/
def sumSqL (raw : List ℕ) (start len : ℕ) : ℚ :=
  ((List.range' start len).map (fun f => (sampleAbsL raw f : ℚ) ^ 2)).sum

/-- Sum of squared right-channel magnitudes over `len` frames from `start`. -/
def sumSqR (raw : List ℕ) (start len : ℕ) : ℚ :=
  ((List.range' start len).map (fun f => (sampleAbsR raw f : ℚ) ^ 2)).sum

/-- One bucket of the peak loop: the per-channel mean square over frames
`start ≤ f < stop` (`0` for an empty bucket, matching `count == 0`).  The
root-mean-square pushed by the Rust loop is the square root of this. -/
def bucketPair (raw : List ℕ) (start stop : ℕ) : ℚ × ℚ :=
  let cnt := stop - start
  if cnt = 0 then (0, 0)
  else (sumSqL raw start cnt / cnt, sumSqR raw start cnt / cnt)

/-- `x as usize` for the nonnegative floats of the peak loop. -/
def floorNat (q : ℚ) : ℕ := (Int.floor q).toNat

/-- The `for _ in 0..num_bars` loop of `WaveformData::from_file`, carrying
the running floating-point frame index `frame_idx`: each iteration takes the
bucket `[frame_idx as usize, min ((frame_idx + fpb) as usize) nf)` and then
advances `frame_idx` by `fpb`. -/
def buildBuckets (raw : List ℕ) (nf : ℕ) (fpb : ℚ) : ℕ → ℚ → List (ℚ × ℚ)
  | 0, _ => []
  | k + 1, idx =>
    bucketPair raw (floorNat idx) (min (floorNat (idx + fpb)) nf) ::
      buildBuckets raw nf fpb k (idx + fpb)

/-- Mean-square peak series before the square root: usable frames are
`raw.len() / 4`, and the stride is `(num_frames as f64 / num_bars as f64).max(1.0)`. -/
def meanSquares (raw : List ℕ) (numBars : ℕ) : List (ℚ × ℚ) :=
  let nf := raw.length / 4
  buildBuckets raw nf (max ((nf : ℚ) / (numBars : ℚ)) 1) numBars 0

/-- The pre-normalization peak series of `WaveformData::from_file`: the
root-mean-square of each bucket, per channel. -/
noncomputable def peaksPre (raw : List ℕ) (numBars : ℕ) : List (ℝ × ℝ) :=
  (meanSquares raw numBars).map
    (fun p => (Real.sqrt (p.1 : ℝ), Real.sqrt (p.2 : ℝ)))

/-- Modelled from the spec: the bucket series the claim describes, with a
floating-point stride of exactly `frames / n` (no lower clamp to `1.0`).
This differs from `meanSquares` only in the stride. -/
def claimStrideMeanSquares (raw : List ℕ) (numBars : ℕ) : List (ℚ × ℚ) :=
  let nf := raw.length / 4
  buildBuckets raw nf ((nf : ℚ) / (numBars : ℚ)) numBars 0

/-- Modelled from the spec: root-mean-square series over the claim's
`frames / n` stride buckets. -/
noncomputable def claimStridePeaks (raw : List ℕ) (numBars : ℕ) : List (ℝ × ℝ) :=
  (claimStrideMeanSquares raw numBars).map
    (fun p => (Real.sqrt (p.1 : ℝ), Real.sqrt (p.2 : ℝ)))

/-- The normalization pool: all nonzero per-channel magnitudes
(`flat_map` of `[p.left, p.right]`, filtered to `> 0`). -/
noncomputable def nonzeroPool (peaks : List (ℝ × ℝ)) : List ℝ :=
  ((peaks.map (fun p => [p.1, p.2])).flatten).filter (fun v => decide (0 < v))

/-- The normalization pool sorted ascending (`sort_by` with `partial_cmp`
on floats that are never NaN). -/
noncomputable def sortedPool (peaks : List (ℝ × ℝ)) : List ℝ :=
  (nonzeroPool peaks).insertionSort (· ≤ ·)

/-- The index of the 95th-percentile rank used by the normalization:
`((len as f64) * 0.95) as usize`, clamped to `len - 1`. -/
def pctIdx (n : ℕ) : ℕ := min (floorNat ((n : ℚ) * (95 / 100))) (n - 1)

/-- The normalization reference `norm_val`: the sorted pool's value at the
95th-percentile rank, or `1.0` for an empty pool. -/
noncomputable def normVal (peaks : List (ℝ × ℝ)) : ℝ :=
  if nonzeroPool peaks = [] then 1
  else (sortedPool peaks).getD (pctIdx (nonzeroPool peaks).length) 0

/-- The normalization pass of `WaveformData::from_file`: when `norm_val` is
positive, divide each magnitude by it, clamp to `1.0`, and apply the
power-law response curve with exponent `1.8`. -/
noncomputable def normalizePeaks (peaks : List (ℝ × ℝ)) : List (ℝ × ℝ) :=
  if 0 < normVal peaks then
    peaks.map (fun p =>
      (min (p.1 / normVal peaks) 1 ^ (1.8 : ℝ), min (p.2 / normVal peaks) 1 ^ (1.8 : ℝ)))
  else peaks

/-- `WaveformData::from_file` from the decoder's output bytes onward
(the missing-file and failed/empty-decoder cases already returned `None`
before this point). -/
noncomputable def from_file_model (raw : List ℕ) (numBars : ℕ) : Option (List (ℝ × ℝ)) :=
  let nf := raw.length / 4
  if nf = 0 ∨ numBars = 0 then none
  else some (normalizePeaks (peaksPre raw numBars))

/-! ### Spectrum stream supervisor configuration (src/cava.rs) -/

/-- A user line whose trimmed form is exactly `[output]`. -/
def isOutputHeader (l : List Char) : Bool := trimChars l = "[output]".data

/-- A user line stripped by the `bars` check: trimmed form starts with
`bars` and contains `=`. -/
def isBarsSetting (l : List Char) : Bool :=
  "bars".data.isPrefixOf (trimChars l) && (trimChars l).contains '='

/-- The copy loop of `CavaVisualizer::create_temp_config`: walk the user's
lines with the `skip_section` flag, dropping the `[output]` section and any
trimmed line that starts with `bars` and contains `=`. -/
def keepLines : List (List Char) → Bool → List (List Char)
  | [], _ => []
  | l :: rest, skip =>
    if "[".data.isPrefixOf (trimChars l) then
      if trimChars l = "[output]".data then keepLines rest true
      else l :: keepLines rest false
    else if skip then keepLines rest true
    else if isBarsSetting l then keepLines rest false
    else l :: keepLines rest false

/-- Decimal digit character. -/
def digitChar (d : ℕ) : Char := Char.ofNat (48 + d)

/-- Decimal digits of a natural number (the `{}` formatting of `num_bars`),
with explicit fuel so that it evaluates by kernel reduction. -/
def natDigitsGo : ℕ → ℕ → List Char
  | 0, _ => []
  | fuel + 1, n =>
    if n < 10 then [digitChar n]
    else natDigitsGo fuel (n / 10) ++ [digitChar (n % 10)]

/-- Decimal rendering of a natural number. -/
def natDigits (n : ℕ) : List Char := natDigitsGo (n + 1) n

/-- The override block appended by `create_temp_config`, as the lines of the
appended string `"\n[general]\nbars = {num_bars}\n\n[output]\n...\n"`. -/
def overrideLines (numBars : ℕ) : List (List Char) :=
  [[], "[general]".data, "bars = ".data ++ natDigits numBars, [],
   "[output]".data, "method = raw".data, "raw_target = /dev/stdout".data,
   "data_format = binary".data, "bit_format = 8bit".data, "channels = mono".data]

/-- `CavaVisualizer::create_temp_config` as a transformation on the lines of
the user's configuration file: the filtered copy of the user's lines
followed by the override block. -/
def create_temp_config (user : List (List Char)) (numBars : ℕ) : List (List Char) :=
  keepLines user false ++ overrideLines numBars

/-- A line that opens a configuration section: its trimmed form starts
with `[` (the copy loop's `trimmed.starts_with('[')` test). -/
def isHeader (l : List Char) : Bool := "[".data.isPrefixOf (trimChars l)

/-- Section view of a configuration file: the lines before the first
section header, and then one `(header, body)` pair per section, where the
body holds the section's lines up to the next header.  This is only a view
of the input used to state what the copy loop does to whole sections; it
does not model any code. -/
def decompose : List (List Char) → List (List Char) × List (List Char × List (List Char))
  | [] => ([], [])
  | l :: rest =>
    let pr := decompose rest
    if isHeader l then ([], (l, pr.1) :: pr.2)
    else (l :: pr.1, pr.2)

/-! ### Spectrum stream supervisor shutdown (src/cava.rs, `impl Drop`) -/

/-- Observable state of the supervised subprocess. -/
structure ProcState where
  running : Bool
  reaped : Bool
deriving DecidableEq

/-- State owned by a `CavaVisualizer` handle just before it is dropped:
the child process (if one was spawned) and the temporary config file. -/
structure CavaState where
  process : Option ProcState
  tempFileExists : Bool
deriving DecidableEq

/-- Oracle choosing which OS-level cleanup calls fail (`kill`, `wait`,
`remove_file` all return `Result`s that the drop handler discards). -/
structure DropOracle where
  killFails : Bool
  waitFails : Bool
  removeFails : Bool
deriving DecidableEq

/-- Result of running the drop handler: the process handle after cleanup,
whether the temp config file still exists, and the cleanup calls attempted,
in order. -/
structure DropOutcome where
  finalProc : Option ProcState
  fileExists : Bool
  trace : List String
deriving DecidableEq

/-- `impl Drop for CavaVisualizer`: if a process handle is present, call
`kill` then `wait` on it, discarding both results; then call `remove_file`
on the temp config path, discarding the result.  The function is total: no
failure is propagated. -/
def dropVisualizer (st : CavaState) (o : DropOracle) : DropOutcome :=
  match st.process with
  | some p =>
    let p1 := if o.killFails then p else { p with running := false }
    let p2 := if o.waitFails then p1 else { p1 with reaped := true }
    { finalProc := some p2
      fileExists := if o.removeFails then st.tempFileExists else false
      trace := ["kill", "wait", "remove_file"] }
  | none =>
    { finalProc := none
      fileExists := if o.removeFails then st.tempFileExists else false
      trace := ["remove_file"] }

/-! ### Color palette extractor (src/color_extractor.rs) -/

/-- Truncation toward zero of a rational, matching `f64 as i32`. -/
def ratTrunc (q : ℚ) : ℤ := if q < 0 then -Int.floor (-q) else Int.floor q

/-- Rust's `%` on `f64`: remainder with the sign of the dividend. -/
def ratRem (x y : ℚ) : ℚ := x - y * (ratTrunc (x / y) : ℚ)

/-- An RGB color (`RGB` in src/color_extractor.rs, `f64` channels modelled
as `ℚ`). -/
structure RGBq where
  r : ℚ
  g : ℚ
  b : ℚ
deriving DecidableEq

/-- `rgb_to_hsv`, including the Rust `%` in the `max == r` hue branch. -/
def rgb_to_hsv (r g b : ℚ) : ℚ × ℚ × ℚ :=
  let mx := max (max r g) b
  let mn := min (min r g) b
  let delta := mx - mn
  let h :=
    if delta = 0 then 0
    else if mx = r then 60 * ratRem ((g - b) / delta) 6
    else if mx = g then 60 * ((b - r) / delta + 2)
    else 60 * ((r - g) / delta + 4)
  let s := if mx = 0 then 0 else delta / mx
  (h, s, mx)

/-- `hsv_to_rgb`, with the sector selected by `h as i32 / 60` (both casts
truncate toward zero). -/
def hsv_to_rgb (h s v : ℚ) : ℚ × ℚ × ℚ :=
  let c := v * s
  let x := c * (1 - |ratRem (h / 60) 2 - 1|)
  let m := v - c
  let sector := Int.tdiv (ratTrunc h) 60
  let rgb :=
    if sector = 0 then (c, x, (0 : ℚ))
    else if sector = 1 then (x, c, (0 : ℚ))
    else if sector = 2 then ((0 : ℚ), c, x)
    else if sector = 3 then ((0 : ℚ), x, c)
    else if sector = 4 then (x, (0 : ℚ), c)
    else (c, (0 : ℚ), x)
  (rgb.1 + m, rgb.2.1 + m, rgb.2.2 + m)

/-- `RGB::desaturate`: scale HSV saturation by `1 - amount` and convert
back. -/
def desaturate (col : RGBq) (amount : ℚ) : RGBq :=
  let hsv := rgb_to_hsv col.r col.g col.b
  let rgb := hsv_to_rgb hsv.1 (hsv.2.1 * (1 - amount)) hsv.2.2
  ⟨rgb.1, rgb.2.1, rgb.2.2⟩

/-- `RGB::darken`: scale all channels by a factor. -/
def darken (col : RGBq) (factor : ℚ) : RGBq :=
  ⟨col.r * factor, col.g * factor, col.b * factor⟩

/-- One pixel of the downsampled cover image: coordinates and byte channels. -/
structure Pixel where
  x : ℕ
  y : ℕ
  r : ℕ
  g : ℕ
  b : ℕ
deriving DecidableEq

/-- The quadrant index assigned by `extract_palette`'s `match` on
`(px < mid_x, py < mid_y)` with `mid_x = w / 2`, `mid_y = h / 2`:
`0` top-left, `1` top-right, `2` bottom-left, `3` bottom-right. -/
def quadIndex (w h x y : ℕ) : Fin 4 :=
  if x < w / 2 then (if y < h / 2 then 0 else 2)
  else (if y < h / 2 then 1 else 3)

/-- Number of pixel coordinates of a `w × h` image falling in quadrant `q`. -/
def quadCount (w h : ℕ) (q : Fin 4) : ℕ :=
  ((Finset.range w ×ˢ Finset.range h).filter
    (fun p => quadIndex w h p.1 p.2 = q)).card

/-- The pixels of the downsampled image accumulated into quadrant `q`. -/
def quadPixels (w h : ℕ) (pixels : List Pixel) (q : Fin 4) : List Pixel :=
  pixels.filter (fun px => decide (quadIndex w h px.x px.y = q))

/-- The palette entry for quadrant `q`: the default `RGB::new(0.2, 0.15, 0.2)`
when the quadrant holds no pixel, otherwise the channel averages (with `u64`
integer division) divided by `255.0`, lightly desaturated and darkened. -/
def quadColor (w h : ℕ) (pixels : List Pixel) (q : Fin 4) : RGBq :=
  let qs := quadPixels w h pixels q
  if qs.length = 0 then ⟨1/5, 3/20, 1/5⟩
  else
    darken
      (desaturate
        ⟨(((qs.map Pixel.r).sum / qs.length : ℕ) : ℚ) / 255,
         (((qs.map Pixel.g).sum / qs.length : ℕ) : ℚ) / 255,
         (((qs.map Pixel.b).sum / qs.length : ℕ) : ℚ) / 255⟩
        (1/10))
      (65/100)

/-- `ColorExtractor::extract_palette` from the decoded, downsampled image
onward: the four corner colors in order top-left, top-right, bottom-left,
bottom-right. -/
def extract_palette (w h : ℕ) (pixels : List Pixel) : List RGBq :=
  [quadColor w h pixels 0, quadColor w h pixels 1,
   quadColor w h pixels 2, quadColor w h pixels 3]

/-! ### Theorems: lyric lookup (C1) -/

/-- In a chain of non-decreasing timestamps, the head's timestamp bounds
every later line's timestamp. -/
theorem chain_le_of_mem {b : LyricLine} :
    ∀ {rest : List LyricLine},
      List.Chain' (fun x y : LyricLine => x.timestamp ≤ y.timestamp) (b :: rest) →
      ∀ p ∈ rest, b.timestamp ≤ p.timestamp
  | [], _, p, hp => absurd hp (List.not_mem_nil p)
  | c :: rs, h, p, hp => by
    rcases List.chain'_cons.mp h with ⟨hbc, hc⟩
    rcases List.mem_cons.mp hp with rfl | hp'
    · exact hbc
    · exact le_trans hbc (chain_le_of_mem hc p hp')

/-- The lookup scan misses exactly when the query time precedes every
timestamp (no sortedness needed). -/
theorem aux_eq_none_iff (t : ℚ) :
    ∀ (l : List LyricLine) (i : ℕ),
      get_current_line_aux t l i = none ↔ ∀ p ∈ l, t < p.timestamp
  | [], i => by simp [get_current_line_aux]
  | [a], i => by
    by_cases h : a.timestamp ≤ t
    · simp [get_current_line_aux, h, not_lt.mpr h]
    · simp [get_current_line_aux, h, not_le.mp h]
  | a :: b :: rest, i => by
    by_cases hcnd : a.timestamp ≤ t ∧ t < b.timestamp
    · simp only [get_current_line_aux, if_pos hcnd]
      constructor
      · intro h; cases h
      · intro h
        exact absurd (h a (List.mem_cons_self a _)) (not_lt.mpr hcnd.1)
    · simp only [get_current_line_aux, if_neg hcnd]
      rw [aux_eq_none_iff t (b :: rest) (i + 1)]
      constructor
      · intro h p hp
        have htb : t < b.timestamp := h b (List.mem_cons_self b rest)
        rcases List.mem_cons.mp hp with rfl | hp'
        · by_contra hle
          exact hcnd ⟨not_lt.mp hle, htb⟩
        · exact h p hp'
      · intro h p hp
        exact h p (List.mem_cons_of_mem a hp)

/-- Characterization of a successful lookup scan started at index `i` over
a timestamp-sorted tail: the hit is the unique (hence greatest) index whose
timestamp is `≤ t`, offset by `i`. -/
theorem aux_eq_some_iff (t : ℚ) :
    ∀ (l : List LyricLine) (i : ℕ),
      List.Chain' (fun x y : LyricLine => x.timestamp ≤ y.timestamp) l →
      ∀ (j : ℕ) (s : List Char),
      (get_current_line_aux t l i = some (j, s) ↔
        ∃ k p, l.get? k = some p ∧ j = i + k ∧ p.timestamp ≤ t ∧ s = p.text ∧
          ∀ m q, l.get? m = some q → q.timestamp ≤ t → m ≤ k)
  | [], i, _, j, s => by
    simp [get_current_line_aux]
  | [a], i, _, j, s => by
    by_cases h : a.timestamp ≤ t
    · simp only [get_current_line_aux, if_pos h]
      constructor
      · intro he
        rcases Option.some.injEq _ _ ▸ he with he'
        have hij : i = j := congrArg Prod.fst (Option.some.inj he)
        have hts : a.text = s := congrArg Prod.snd (Option.some.inj he)
        refine ⟨0, a, rfl, by omega, h, hts.symm, ?_⟩
        intro m q hm _
        match m with
        | 0 => exact Nat.le_refl 0
        | Nat.succ m' => simp [List.get?] at hm
      · rintro ⟨k, p, hk, hj, hpt, hs, _⟩
        match k, hk with
        | 0, hk =>
          have : a = p := Option.some.inj hk
          subst this
          simp [hj, hs]
        | Nat.succ k', hk => simp [List.get?] at hk
    · simp only [get_current_line_aux, if_neg h]
      constructor
      · intro he; cases he
      · rintro ⟨k, p, hk, hj, hpt, hs, _⟩
        match k, hk with
        | 0, hk =>
          have : a = p := Option.some.inj hk
          subst this
          exact absurd hpt h
        | Nat.succ k', hk => simp [List.get?] at hk
  | a :: b :: rest, i, hch, j, s => by
    obtain ⟨hab, htail⟩ := List.chain'_cons.mp hch
    by_cases hcnd : a.timestamp ≤ t ∧ t < b.timestamp
    · simp only [get_current_line_aux, if_pos hcnd]
      constructor
      · intro he
        have hij : i = j := congrArg Prod.fst (Option.some.inj he)
        have hts : a.text = s := congrArg Prod.snd (Option.some.inj he)
        refine ⟨0, a, rfl, by omega, hcnd.1, hts.symm, ?_⟩
        intro m q hm hq
        match m, hm with
        | 0, _ => exact Nat.le_refl 0
        | Nat.succ m', hm =>
          exfalso
          have hm' : (b :: rest).get? m' = some q := hm
          have hqmem : q ∈ b :: rest := List.get?_mem hm'
          have hbq : b.timestamp ≤ q.timestamp := by
            rcases List.mem_cons.mp hqmem with rfl | hq'
            · exact le_refl _
            · exact chain_le_of_mem htail q hq'
          exact absurd hq (not_le.mpr (lt_of_lt_of_le hcnd.2 hbq))
      · rintro ⟨k, p, hk, hj, hpt, hs, hmax⟩
        match k, hk with
        | 0, hk =>
          have : a = p := Option.some.inj hk
          subst this
          simp [hj, hs]
        | Nat.succ k', hk =>
          exfalso
          have hk' : (b :: rest).get? k' = some p := hk
          have hpmem : p ∈ b :: rest := List.get?_mem hk'
          have hbp : b.timestamp ≤ p.timestamp := by
            rcases List.mem_cons.mp hpmem with rfl | hp'
            · exact le_refl _
            · exact chain_le_of_mem htail p hp'
          exact absurd hpt (not_le.mpr (lt_of_lt_of_le hcnd.2 hbp))
    · simp only [get_current_line_aux, if_neg hcnd]
      rw [aux_eq_some_iff t (b :: rest) (i + 1) htail j s]
      constructor
      · rintro ⟨k', p, hk', hj, hpt, hs, hmax⟩
        refine ⟨k' + 1, p, hk', by omega, hpt, hs, ?_⟩
        intro m q hm hq
        match m, hm with
        | 0, hm =>
          exact Nat.zero_le _
        | Nat.succ m', hm =>
          exact Nat.succ_le_succ (hmax m' q hm hq)
      · rintro ⟨k, p, hk, hj, hpt, hs, hmax⟩
        match k, hk with
        | 0, hk =>
          exfalso
          have : a = p := Option.some.inj hk
          subst this
          have hbt : b.timestamp ≤ t := by
            by_contra hbt'
            exact hcnd ⟨hpt, not_le.mp hbt'⟩
          have h1 : (1 : ℕ) ≤ 0 := hmax 1 b rfl hbt
          omega
        | Nat.succ k', hk =>
          refine ⟨k', p, hk, by omega, hpt, hs, ?_⟩
          intro m' q hm' hq'
          have := hmax (m' + 1) q hm' hq'
          omega

/-- C1: for a timestamp-sorted lyric track, `get_current_line` returns
`some (i, text)` exactly when `i` is the greatest index whose timestamp is
`≤ t` (equivalently: its timestamp is `≤ t` and either it is the last line
or `t` precedes the next timestamp), returning the first such match in
sorted order, and returns `none` exactly when the track is empty or `t`
precedes the first timestamp; on the spec's example track with timestamps
`[0, 2, 5]` the queries `1, 2, 4.99, 5, 10` yield indices `0, 1, 1, 2, 2`
and `-1` yields `none`. -/
theorem get_current_line_matches_spec (lines : List LyricLine) (t : ℚ)
    (hs : List.Chain' (fun x y : LyricLine => x.timestamp ≤ y.timestamp) lines) :
    (∀ j s, get_current_line lines t = some (j, s) ↔
        ∃ p, lines.get? j = some p ∧ p.timestamp ≤ t ∧ s = p.text ∧
          (j + 1 = lines.length ∨
            ∃ q, lines.get? (j + 1) = some q ∧ t < q.timestamp) ∧
          ∀ m q, lines.get? m = some q → q.timestamp ≤ t → m ≤ j)
    ∧ (get_current_line lines t = none ↔
        lines = [] ∨ ∃ p l', lines = p :: l' ∧ t < p.timestamp)
    ∧ get_current_line exampleTrack 1 = some (0, "a".data)
    ∧ get_current_line exampleTrack 2 = some (1, "b".data)
    ∧ get_current_line exampleTrack (499/100) = some (1, "b".data)
    ∧ get_current_line exampleTrack 5 = some (2, "c".data)
    ∧ get_current_line exampleTrack 10 = some (2, "c".data)
    ∧ get_current_line exampleTrack (-1) = none := by
  refine ⟨?_, ?_, ?_, ?_, ?_, ?_, ?_, ?_⟩
  · intro j s
    rw [get_current_line, aux_eq_some_iff t lines 0 hs j s]
    constructor
    · rintro ⟨k, p, hk, hj, hpt, hs', hmax⟩
      have hkj : k = j := by omega
      subst hkj
      refine ⟨p, hk, hpt, hs', ?_, hmax⟩
      have hlen : k < lines.length := (List.get?_eq_some.mp hk).1
      rcases Nat.lt_or_ge (k + 1) lines.length with hlt | hge
      · right
        refine ⟨lines.get ⟨k + 1, hlt⟩, List.get?_eq_get hlt, ?_⟩
        by_contra hnot
        have := hmax (k + 1) (lines.get ⟨k + 1, hlt⟩) (List.get?_eq_get hlt)
          (not_lt.mp hnot)
        omega
      · left; omega
    · rintro ⟨p, hp, hpt, hs', _, hmax⟩
      exact ⟨j, p, hp, by omega, hpt, hs', hmax⟩
  · rw [get_current_line, aux_eq_none_iff t lines 0]
    cases lines with
    | nil => simp
    | cons p l' =>
      constructor
      · intro h
        exact Or.inr ⟨p, l', rfl, h p (List.mem_cons_self p l')⟩
      · rintro (h | ⟨p', l'', heq, hlt⟩)
        · exact absurd h (List.cons_ne_nil p l')
        · cases heq
          intro q hq
          rcases List.mem_cons.mp hq with rfl | hq'
          · exact hlt
          · exact lt_of_lt_of_le hlt (chain_le_of_mem hs q hq')
  · norm_num [get_current_line, get_current_line_aux, exampleTrack]
  · norm_num [get_current_line, get_current_line_aux, exampleTrack]
  · norm_num [get_current_line, get_current_line_aux, exampleTrack]
  · norm_num [get_current_line, get_current_line_aux, exampleTrack]
  · norm_num [get_current_line, get_current_line_aux, exampleTrack]
  · norm_num [get_current_line, get_current_line_aux, exampleTrack]

/-- Witness for C1 at the concrete example track: the sortedness hypothesis
is discharged by computation. -/
theorem get_current_line_matches_spec_witness :
    get_current_line exampleTrack 1 = some (0, "a".data) ∧
    get_current_line exampleTrack (-1) = none :=
  ⟨(get_current_line_matches_spec exampleTrack 1
      (by norm_num [exampleTrack, List.chain'_cons])).2.2.1,
   (get_current_line_matches_spec exampleTrack (-1)
      (by norm_num [exampleTrack, List.chain'_cons])).2.2.2.2.2.2.2⟩

/-! ### Theorems: lyric parsing (C4) -/

/-- The parsing loop fails exactly when some line has a timestamp match
whose minutes field overflows `u32`. -/
theorem parseLrc_eq_none_iff :
    ∀ content : List (List Char),
      parseLrc content = none ↔
        ∃ l ∈ content, ∃ m, findMatch l = some m ∧ ¬ (digitsVal m.1 < 2 ^ 32)
  | [] => by simp [parseLrc]
  | l :: rest => by
    have IH := parseLrc_eq_none_iff rest
    cases hres : parseLrc rest with
    | none =>
      obtain ⟨l', hl', hm⟩ := IH.mp hres
      simp only [parseLrc, hres, Option.none_bind]
      constructor
      · intro _
        exact ⟨l', List.mem_cons_of_mem l hl', hm⟩
      · intro _
        rfl
    | some tail =>
      have hnrest : ¬ ∃ l' ∈ rest, ∃ m, findMatch l' = some m ∧
          ¬ (digitsVal m.1 < 2 ^ 32) := by
        intro hex
        rw [← IH] at hex
        rw [hres] at hex
        cases hex
      cases hm : findMatch l with
      | none =>
        simp only [parseLrc, hres, Option.some_bind, hm]
        constructor
        · intro h; cases h
        · rintro ⟨l', hl', m, hmm, hov⟩
          rcases List.mem_cons.mp hl' with rfl | hl''
          · rw [hm] at hmm; cases hmm
          · exact absurd ⟨l', hl'', m, hmm, hov⟩ hnrest
      | some m =>
        obtain ⟨d1, d2, d3, txt⟩ := m
        by_cases hd : digitsVal d1 < 2 ^ 32
        · simp only [parseLrc, hres, Option.some_bind, hm, if_pos hd]
          constructor
          · intro h; cases h
          · rintro ⟨l', hl', m', hmm, hov⟩
            rcases List.mem_cons.mp hl' with rfl | hl''
            · rw [hm] at hmm
              cases hmm
              exact (hov hd).elim
            · exact absurd ⟨l', hl'', m', hmm, hov⟩ hnrest
        · simp only [parseLrc, hres, Option.some_bind, hm, if_neg hd]
          constructor
          · intro _
            exact ⟨l, List.mem_cons_self l rest, (d1, d2, d3, txt), hm, hd⟩
          · intro _
            rfl

/-- C4: `LRCParser::from_file` matches each line against the
`[minutes:seconds.fraction]text` pattern; a matched line contributes the
timestamp `minutes * 60 + seconds` and its trimmed text, an unmatched line
contributes nothing, and the whole file fails exactly when a matched
minutes field fails to parse as a `u32`; in particular
`[00:01.50]Hello` yields timestamp `1.5` with text `Hello`, and the line
`not a tag` is skipped. -/
theorem lrc_parse_spec :
    (∀ content, lrc_from_file content = none ↔
        ∃ l ∈ content, ∃ m, findMatch l = some m ∧ ¬ (digitsVal m.1 < 2 ^ 32))
    ∧ (∀ l rest, findMatch l = none → parseLrc (l :: rest) = parseLrc rest)
    ∧ (∀ l rest d1 d2 d3 txt, findMatch l = some (d1, d2, d3, txt) →
        digitsVal d1 < 2 ^ 32 →
        parseLrc (l :: rest) = (parseLrc rest).map
          (fun tail => ⟨tsVal d1 d2 d3, trimChars txt⟩ :: tail))
    ∧ lrc_from_file ["[00:01.50]Hello".data, "not a tag".data] =
        some [⟨3 / 2, "Hello".data⟩]
    ∧ tsVal "00".data "01".data "50".data = 3 / 2 := by
  have hts : tsVal "00".data "01".data "50".data = 3 / 2 := by
    have hd1 : digitsVal "00".data = 0 := by decide
    have hd2 : digitsVal "01".data = 1 := by decide
    have hd3 : digitsVal "50".data = 50 := by decide
    have hlen : ("50".data).length = 2 := by decide
    norm_num [tsVal, fracVal, hd1, hd2, hd3, hlen]
  refine ⟨?_, ?_, ?_, ?_, hts⟩
  · intro content
    rw [lrc_from_file, Option.map_eq_none']
    exact parseLrc_eq_none_iff content
  · intro l rest h
    cases hres : parseLrc rest <;>
      simp [parseLrc, hres, h]
  · intro l rest d1 d2 d3 txt h hd
    cases hres : parseLrc rest <;>
      simp [parseLrc, hres, h, hd] <;> omega
  · have h1 : findMatch "[00:01.50]Hello".data =
        some ("00".data, "01".data, "50".data, "Hello".data) := by decide
    have h2 : findMatch "not a tag".data = none := by decide
    have h3 : digitsVal "00".data < 2 ^ 32 := by decide
    have h4 : trimChars "Hello".data = "Hello".data := by decide
    simp only [lrc_from_file, parseLrc, h1, h2, Option.some_bind,
      Option.none_bind, if_pos h3, h4, Option.map_some, hts]
    simp [List.insertionSort, List.orderedInsert]

/-- Witness for C4: the skip rule applied to the concrete unmatched line,
and the concrete parse example. -/
theorem lrc_parse_spec_witness :
    parseLrc ["not a tag".data] = parseLrc [] ∧
    lrc_from_file ["[00:01.50]Hello".data, "not a tag".data] =
      some [⟨3 / 2, "Hello".data⟩] :=
  ⟨lrc_parse_spec.2.1 "not a tag".data [] (by decide),
   lrc_parse_spec.2.2.2.1⟩

/-! ### Theorems: waveform failure cases (C10) -/

/-- C10: beyond the missing-file, failed-decoder and empty-output cases,
`WaveformData::from_file` also returns `None` whenever the requested bar
count is zero or the decoder output holds fewer than one complete 4-byte
frame, and in all remaining cases it produces a series. -/
theorem from_file_extra_failure_cases (raw : List ℕ) (numBars : ℕ) :
    (numBars = 0 ∨ raw.length < 4 → from_file_model raw numBars = none)
    ∧ (¬ (numBars = 0 ∨ raw.length < 4) →
        ∃ s, from_file_model raw numBars = some s) := by
  constructor
  · intro h
    have hc : raw.length / 4 = 0 ∨ numBars = 0 := by
      rcases h with h | h
      · exact Or.inr h
      · exact Or.inl (by omega)
    simp only [from_file_model, if_pos hc]
  · intro h
    push_neg at h
    have hc : ¬ (raw.length / 4 = 0 ∨ numBars = 0) := by
      push_neg
      exact ⟨by omega, h.1⟩
    refine ⟨normalizePeaks (peaksPre raw numBars), ?_⟩
    simp only [from_file_model, if_neg hc]

/-- Witness for C10: three bytes of decoder output (nonempty, but less than
one frame) with a positive bar count yield `None`. -/
theorem from_file_extra_failure_cases_witness :
    from_file_model [1, 2, 3] 5 = none :=
  (from_file_extra_failure_cases [1, 2, 3] 5).1 (Or.inr (by norm_num))

/-! ### Theorems: supervisor shutdown (C6) -/

/-- C6: on release of the supervisor handle both cleanup steps run — the
subprocess is killed and then waited on, and the temporary configuration
file is removed — in that order, for every combination of OS-call failures;
failure of one step never skips the other, failures are swallowed (the handler
is total), and on the non-failing path the process ends not running, reaped,
with the file gone. -/
theorem drop_cleanup (st : CavaState) (o : DropOracle) (p : ProcState)
    (hp : st.process = some p) :
    (dropVisualizer st o).trace = ["kill", "wait", "remove_file"]
    ∧ (o.removeFails = false → (dropVisualizer st o).fileExists = false)
    ∧ (o.killFails = false → ∃ q, (dropVisualizer st o).finalProc = some q ∧
        q.running = false)
    ∧ (o.killFails = false → o.waitFails = false →
        (dropVisualizer st o).finalProc = some ⟨false, true⟩) := by
  obtain ⟨kf, wf, rf⟩ := o
  cases kf <;> cases wf <;> cases rf <;>
    simp [dropVisualizer, hp]

/-- Witness for C6 at a concrete pre-drop state and the all-succeeding
oracle. -/
theorem drop_cleanup_witness :
    (dropVisualizer ⟨some ⟨true, false⟩, true⟩ ⟨false, false, false⟩).trace
      = ["kill", "wait", "remove_file"] ∧
    (dropVisualizer ⟨some ⟨true, false⟩, true⟩ ⟨false, false, false⟩).fileExists
      = false :=
  ⟨(drop_cleanup ⟨some ⟨true, false⟩, true⟩ ⟨false, false, false⟩
      ⟨true, false⟩ rfl).1,
   (drop_cleanup ⟨some ⟨true, false⟩, true⟩ ⟨false, false, false⟩
      ⟨true, false⟩ rfl).2.1 rfl⟩

/-! ### Theorems: quadrant partition (C7) -/

/-- C7: for an image of even width and height, each pixel coordinate is
assigned to exactly one quadrant by comparison against the midpoints
(`0` top-left, `1` top-right, `2` bottom-left, `3` bottom-right), and the
four quadrant pixel counts sum to the total pixel count. -/
theorem quadrant_partition (w h : ℕ) (hw : Even w) (hh : Even h) :
    (∀ x y, x < w → y < h →
        ((x < w / 2 ∧ y < h / 2) ↔ quadIndex w h x y = 0)
        ∧ ((¬ x < w / 2 ∧ y < h / 2) ↔ quadIndex w h x y = 1)
        ∧ ((x < w / 2 ∧ ¬ y < h / 2) ↔ quadIndex w h x y = 2)
        ∧ ((¬ x < w / 2 ∧ ¬ y < h / 2) ↔ quadIndex w h x y = 3))
    ∧ quadCount w h 0 + quadCount w h 1 + quadCount w h 2 + quadCount w h 3
        = w * h := by
  constructor
  · intro x y _ _
    by_cases hx : x < w / 2 <;> by_cases hy : y < h / 2 <;>
      simp [quadIndex, hx, hy] <;> decide
  · have hsum := Finset.card_eq_sum_card_fiberwise
      (f := fun p : ℕ × ℕ => quadIndex w h p.1 p.2)
      (s := Finset.range w ×ˢ Finset.range h)
      (t := (Finset.univ : Finset (Fin 4)))
      (fun x _ => Finset.mem_univ _)
    rw [Fin.sum_univ_four] at hsum
    simp only [quadCount]
    rw [← hsum, Finset.card_product, Finset.card_range, Finset.card_range]

/-- Witness for C7 on a 2×2 image. -/
theorem quadrant_partition_witness :
    quadCount 2 2 0 + quadCount 2 2 1 + quadCount 2 2 2 + quadCount 2 2 3
      = 4 :=
  ((quadrant_partition 2 2 (by decide) (by decide)).2).trans (by norm_num)

/-! ### Theorems: palette extraction purity (C8) -/

/-- C8: palette extraction is a pure function of the image's pixels and
dimensions: two runs on the same image yield the same four corner colors in
the same order. -/
theorem extract_palette_pure (w h : ℕ) (pixels : List Pixel)
    (w' h' : ℕ) (pixels' : List Pixel)
    (hw : w = w') (hh : h = h') (hp : pixels = pixels') :
    extract_palette w h pixels = extract_palette w' h' pixels' := by
  subst hw
  subst hh
  subst hp
  rfl

/-- Witness for C8 on a concrete 2×2 image. -/
theorem extract_palette_pure_witness :
    extract_palette 2 2 [⟨0, 0, 10, 20, 30⟩, ⟨1, 1, 40, 50, 60⟩]
      = extract_palette 2 2 [⟨0, 0, 10, 20, 30⟩, ⟨1, 1, 40, 50, 60⟩] :=
  extract_palette_pure 2 2 [⟨0, 0, 10, 20, 30⟩, ⟨1, 1, 40, 50, 60⟩]
    2 2 [⟨0, 0, 10, 20, 30⟩, ⟨1, 1, 40, 50, 60⟩] rfl rfl rfl

/-! ### Theorems: RGB/HSV round trip (C9) -/

/-- C9 (code bug): on the in-range color `(1, 0, 0.5)` the `max == r` hue
branch produces the negative hue `-30` (Rust `%` keeps the dividend's sign),
`hsv_to_rgb` maps negative hues into sector `0` with a negative interpolant,
and the round trip — equivalently `desaturate` with amount `0` — returns
`(1, -0.5, 0)` instead of the original color, contradicting the standard
hue/saturation/value formulas the helpers are meant to implement. -/
theorem hsv_roundtrip_failing_input :
    desaturate ⟨1, 0, 1 / 2⟩ 0 = ⟨1, -(1 / 2), 0⟩ ∧
    (⟨1, -(1 / 2), 0⟩ : RGBq) ≠ ⟨1, 0, 1 / 2⟩ := by
  constructor
  · have htd : Int.tdiv (-30 : ℤ) 60 = 0 := by decide
    norm_num [desaturate, rgb_to_hsv, hsv_to_rgb, ratRem, ratTrunc,
      max_def, min_def, htd]
    rw [abs_of_nonneg (by norm_num : (0 : ℚ) ≤ 3 / 2)]
    norm_num
  · intro hcon
    have : (-(1 / 2) : ℚ) = 0 := congrArg RGBq.g hcon
    norm_num at this

/-! ### Theorems: analyzer configuration generation (C5) -/

/-- Trimming a line whose first character is not whitespace yields either
the empty line or a line with the same first character. -/
theorem trim_of_cons (c : Char) (rest : List Char) (h : isWS c = false) :
    trimChars (c :: rest) = [] ∨ ∃ tl, trimChars (c :: rest) = c :: tl := by
  have hdw : (c :: rest).dropWhile isWS = c :: rest := by
    rw [List.dropWhile_cons, if_neg (by simp [h])]
  obtain ⟨pre, hpre⟩ := List.dropWhile_suffix (l := (c :: rest).reverse) isWS
  have hrev : ((c :: rest).reverse.dropWhile isWS).reverse ++ pre.reverse
      = c :: rest := by
    have h' := congrArg List.reverse hpre
    simpa [List.reverse_append] using h'
  have htrim : trimChars (c :: rest)
      = ((c :: rest).reverse.dropWhile isWS).reverse := by
    rw [trimChars, hdw]
  cases hsr : ((c :: rest).reverse.dropWhile isWS).reverse with
  | nil => left; rw [htrim, hsr]
  | cons a as =>
    right
    rw [hsr] at hrev
    have hac : a = c := by
      rw [List.cons_append] at hrev
      exact (List.cons.injEq _ _ _ _ ▸ hrev).1
    exact ⟨as, by rw [htrim, hsr, hac]⟩

/-- A line's trim starts with `[` exactly when its head character is `[`. -/
theorem isPrefixOf_bracket (c : Char) (ts : List Char) :
    "[".data.isPrefixOf (c :: ts) = ('[' == c) := by
  simp [List.isPrefixOf]

/-- `bars` is never a prefix of a line starting with `[`. -/
theorem bars_not_prefixOf_bracket (ts : List Char) :
    "bars".data.isPrefixOf ('[' :: ts) = false := by
  have hbc : (('b' : Char) == '[') = false := by decide
  simp [List.isPrefixOf, hbc]

/-- Every line kept from the user's configuration is neither a `bars`
setting nor an `[output]` header. -/
theorem keepLines_kept_ok :
    ∀ (u : List (List Char)) (skip : Bool), ∀ l ∈ keepLines u skip,
      isBarsSetting l = false ∧ isOutputHeader l = false
  | [], skip => by simp [keepLines]
  | l :: rest, skip => by
    intro x hx
    rw [keepLines] at hx
    by_cases hH : "[".data.isPrefixOf (trimChars l) = true
    · rw [if_pos hH] at hx
      by_cases hO : trimChars l = "[output]".data
      · rw [if_pos hO] at hx
        exact keepLines_kept_ok rest true x hx
      · rw [if_neg hO] at hx
        rcases List.mem_cons.mp hx with rfl | hx'
        · constructor
          · cases hts : trimChars x with
            | nil => rw [hts] at hH; simp [List.isPrefixOf] at hH
            | cons a as =>
              rw [hts, isPrefixOf_bracket] at hH
              have ha : a = '[' := (beq_iff_eq.mp hH).symm
              rw [isBarsSetting, hts, ha, bars_not_prefixOf_bracket]
              rfl
          · simp [isOutputHeader, hO]
        · exact keepLines_kept_ok rest false x hx'
    · rw [if_neg hH] at hx
      cases skip with
      | true =>
        rw [if_pos rfl] at hx
        exact keepLines_kept_ok rest true x hx
      | false =>
        rw [if_neg (by simp : ¬ (false = true))] at hx
        by_cases hB : isBarsSetting l = true
        · rw [if_pos hB] at hx
          exact keepLines_kept_ok rest false x hx
        · rw [if_neg hB] at hx
          rcases List.mem_cons.mp hx with rfl | hx'
          · refine ⟨by revert hB; cases isBarsSetting x <;> simp, ?_⟩
            have hne : trimChars x ≠ "[output]".data := by
              intro hcon
              apply hH
              rw [hcon]
              decide
            simp [isOutputHeader, hne]
          · exact keepLines_kept_ok rest false x hx'

/-- No `[output]` header survives the copy loop. -/
theorem keepLines_filter_output (u : List (List Char)) (skip : Bool) :
    (keepLines u skip).filter isOutputHeader = [] := by
  rw [List.filter_eq_nil]
  intro a ha
  simp [(keepLines_kept_ok u skip a ha).2]

/-- The override block contains exactly one `[output]` header. -/
theorem overrideLines_filter_output (numBars : ℕ) :
    (overrideLines numBars).filter isOutputHeader = ["[output]".data] := by
  have h1 : isOutputHeader ([] : List Char) = false := by decide
  have h2 : isOutputHeader "[general]".data = false := by decide
  have h3 : isOutputHeader ("bars = ".data ++ natDigits numBars) = false := by
    have hsplit : ("bars = ".data ++ natDigits numBars)
        = 'b' :: ("ars = ".data ++ natDigits numBars) := rfl
    rw [hsplit]
    rcases trim_of_cons 'b' ("ars = ".data ++ natDigits numBars)
        (by decide) with h | ⟨tl, h⟩
    · show decide (trimChars ('b' :: ("ars = ".data ++ natDigits numBars))
          = "[output]".data) = false
      rw [h]
      decide
    · show decide (trimChars ('b' :: ("ars = ".data ++ natDigits numBars))
          = "[output]".data) = false
      rw [h]
      simp only [decide_eq_false_iff_not]
      intro hcon
      injection hcon with h1 _
      exact absurd h1 (by decide)
  have h5 : isOutputHeader "[output]".data = true := by decide
  have h6 : isOutputHeader "method = raw".data = false := by decide
  have h7 : isOutputHeader "raw_target = /dev/stdout".data = false := by decide
  have h8 : isOutputHeader "data_format = binary".data = false := by decide
  have h9 : isOutputHeader "bit_format = 8bit".data = false := by decide
  have h10 : isOutputHeader "channels = mono".data = false := by decide
  simp only [overrideLines, List.filter_cons, List.filter_nil,
    h1, h2, h3, h5, h6, h7, h8, h9, h10]
  rfl

/-- The copy loop only ever emits lines of the user's file, in order. -/
theorem keepLines_sublist :
    ∀ (u : List (List Char)) (skip : Bool), List.Sublist (keepLines u skip) u
  | [], skip => by simp [keepLines]
  | l :: rest, skip => by
    rw [keepLines]
    by_cases hH : "[".data.isPrefixOf (trimChars l) = true
    · rw [if_pos hH]
      by_cases hO : trimChars l = "[output]".data
      · rw [if_pos hO]
        exact (keepLines_sublist rest true).cons l
      · rw [if_neg hO]
        exact (keepLines_sublist rest false).cons₂ l
    · rw [if_neg hH]
      cases skip with
      | true =>
        rw [if_pos rfl]
        exact (keepLines_sublist rest true).cons l
      | false =>
        rw [if_neg (by simp : ¬ (false = true))]
        by_cases hB : isBarsSetting l = true
        · rw [if_pos hB]
          exact (keepLines_sublist rest false).cons l
        · rw [if_neg hB]
          exact (keepLines_sublist rest false).cons₂ l

/-- The section view reconstructs the input: the prelude holds no header,
every section starts with a header and its body holds no header. -/
theorem decompose_spec :
    ∀ u : List (List Char),
      u = (decompose u).1 ++ ((decompose u).2.map (fun s => s.1 :: s.2)).flatten
      ∧ (∀ l ∈ (decompose u).1, isHeader l = false)
      ∧ (∀ s ∈ (decompose u).2, isHeader s.1 = true
          ∧ ∀ l ∈ s.2, isHeader l = false)
  | [] => by
    refine ⟨rfl, ?_, ?_⟩ <;> simp [decompose]
  | l :: rest => by
    obtain ⟨h1, h2, h3⟩ := decompose_spec rest
    by_cases hH : isHeader l = true
    · have hd : decompose (l :: rest)
          = ([], (l, (decompose rest).1) :: (decompose rest).2) := by
        simp only [decompose]
        rw [if_pos hH]
      rw [hd]
      refine ⟨?_, by simp, ?_⟩
      · simp only [List.map_cons, List.flatten_cons, List.nil_append,
          List.cons_append]
        exact congrArg (List.cons l) h1
      · intro s hx
        rcases List.mem_cons.mp hx with rfl | hx'
        · exact ⟨hH, h2⟩
        · exact h3 s hx'
    · have hH' : isHeader l = false := by
        revert hH
        cases isHeader l <;> simp
      have hd : decompose (l :: rest)
          = (l :: (decompose rest).1, (decompose rest).2) := by
        simp only [decompose]
        rw [if_neg hH]
      rw [hd]
      refine ⟨?_, ?_, h3⟩
      · simp only [List.cons_append]
        exact congrArg (List.cons l) h1
      · intro x hx
        rcases List.mem_cons.mp hx with rfl | hx'
        · exact hH'
        · exact h2 x hx'

/-- While `skip_section` is set, every line up to the next header is
dropped. -/
theorem keepLines_skip_body :
    ∀ body : List (List Char), (∀ l ∈ body, isHeader l = false) →
      ∀ rest, keepLines (body ++ rest) true = keepLines rest true
  | [], _, rest => rfl
  | l :: body', hb, rest => by
    have hl : "[".data.isPrefixOf (trimChars l) = false :=
      hb l (List.mem_cons_self l body')
    rw [List.cons_append, keepLines, if_neg (by simp [hl]), if_pos rfl]
    exact keepLines_skip_body body'
      (fun x hx => hb x (List.mem_cons_of_mem l hx)) rest

/-- While `skip_section` is clear, the lines up to the next header are
kept in order, except for the `bars`-prefixed settings. -/
theorem keepLines_open_body :
    ∀ body : List (List Char), (∀ l ∈ body, isHeader l = false) →
      ∀ rest, keepLines (body ++ rest) false
        = body.filter (fun l => !isBarsSetting l) ++ keepLines rest false
  | [], _, rest => rfl
  | l :: body', hb, rest => by
    have hl : "[".data.isPrefixOf (trimChars l) = false :=
      hb l (List.mem_cons_self l body')
    have hrec := keepLines_open_body body'
      (fun x hx => hb x (List.mem_cons_of_mem l hx)) rest
    rw [List.cons_append, keepLines, if_neg (by simp [hl]),
      if_neg (by simp : ¬ (false = true))]
    by_cases hB : isBarsSetting l = true
    · rw [if_pos hB, hrec, List.filter_cons, if_neg (by simp [hB])]
    · have hB' : isBarsSetting l = false := by
        revert hB
        cases isBarsSetting l <;> simp
      rw [if_neg hB, hrec, List.filter_cons, if_pos (by simp [hB']),
        List.cons_append]

/-- The copy loop on a sequence of whole sections, from either flag state:
an `[output]` section vanishes — header and body — and every other section
keeps its header and its body lines in order, minus the `bars`-prefixed
settings. -/
theorem keepLines_sections :
    ∀ secs : List (List Char × List (List Char)),
      (∀ s ∈ secs, isHeader s.1 = true ∧ ∀ l ∈ s.2, isHeader l = false) →
      ∀ b : Bool, keepLines ((secs.map (fun s => s.1 :: s.2)).flatten) b
        = (secs.map (fun s =>
            if trimChars s.1 = "[output]".data then []
            else s.1 :: s.2.filter (fun l => !isBarsSetting l))).flatten
  | [], _, b => rfl
  | (hd, body) :: secs', hs, b => by
    have hh : "[".data.isPrefixOf (trimChars hd) = true :=
      (hs (hd, body) (List.mem_cons_self _ _)).1
    have hb : ∀ l ∈ body, isHeader l = false :=
      (hs (hd, body) (List.mem_cons_self _ _)).2
    have hs' : ∀ s ∈ secs', isHeader s.1 = true
        ∧ ∀ l ∈ s.2, isHeader l = false :=
      fun s hx => hs s (List.mem_cons_of_mem _ hx)
    simp only [List.map_cons, List.flatten_cons]
    rw [List.cons_append, keepLines, if_pos hh]
    by_cases hO : trimChars hd = "[output]".data
    · rw [if_pos hO, keepLines_skip_body body hb _,
        keepLines_sections secs' hs' true, if_pos hO, List.nil_append]
    · rw [if_neg hO, keepLines_open_body body hb _,
        keepLines_sections secs' hs' false, if_neg hO, List.cons_append]

/-- Complete description of the copy loop on any user file, through its
section view. -/
theorem keepLines_characterization (u : List (List Char)) :
    keepLines u false
      = (decompose u).1.filter (fun l => !isBarsSetting l)
        ++ ((decompose u).2.map (fun s =>
            if trimChars s.1 = "[output]".data then []
            else s.1 :: s.2.filter (fun l => !isBarsSetting l))).flatten := by
  obtain ⟨h1, h2, h3⟩ := decompose_spec u
  conv_lhs => rw [h1]
  rw [keepLines_open_body _ h2, keepLines_sections _ h3 false]

/-- C5 (amended): the generated analyzer configuration contains exactly one
`[output]` header — the appended override block with the forced raw/binary/
8-bit/mono settings and the `[general]` block forcing the bar count; the
user's `[output]` sections never survive the copy, header or body; every
user line whose trimmed form starts with `bars` and contains `=` is
stripped wherever it occurs (not only exact `bars =` settings); and all
other user lines pass through unmodified in their original order — the
prelude before the first header keeps exactly its non-`bars` lines, and
every non-`[output]` section keeps its header and exactly its non-`bars`
body lines, as the section-view equation states for every user input. -/
theorem create_temp_config_spec (user : List (List Char)) (numBars : ℕ) :
    ((create_temp_config user numBars).filter isOutputHeader).length = 1
    ∧ List.IsSuffix (overrideLines numBars) (create_temp_config user numBars)
    ∧ (∀ l ∈ keepLines user false,
        isBarsSetting l = false ∧ isOutputHeader l = false)
    ∧ List.Sublist (keepLines user false) user
    ∧ user = (decompose user).1
        ++ ((decompose user).2.map (fun s => s.1 :: s.2)).flatten
    ∧ (∀ l ∈ (decompose user).1, isHeader l = false)
    ∧ (∀ s ∈ (decompose user).2, isHeader s.1 = true
        ∧ ∀ l ∈ s.2, isHeader l = false)
    ∧ create_temp_config user numBars
        = (decompose user).1.filter (fun l => !isBarsSetting l)
          ++ ((decompose user).2.map (fun s =>
              if trimChars s.1 = "[output]".data then []
              else s.1 :: s.2.filter (fun l => !isBarsSetting l))).flatten
          ++ overrideLines numBars := by
  obtain ⟨h1, h2, h3⟩ := decompose_spec user
  refine ⟨?_, ⟨keepLines user false, rfl⟩, keepLines_kept_ok user false,
    keepLines_sublist user false, h1, h2, h3, ?_⟩
  · rw [create_temp_config, List.filter_append, keepLines_filter_output,
      overrideLines_filter_output]
    rfl
  · rw [create_temp_config, keepLines_characterization user,
      List.append_assoc]

/-- C5 counterexample to the claim as stated: the user line
`  barstyle = 1`, which lives in the `[color]` section and is not a
`bars =` setting, does not survive into the generated configuration, so
sections other than `[output]` are not passed through unmodified. -/
theorem create_temp_config_counterexample :
    "  barstyle = 1".data ∉
      create_temp_config ["[color]".data, "  barstyle = 1".data] 10 := by
  decide

/-- Witness for C5 on a concrete user configuration. -/
theorem create_temp_config_spec_witness :
    ((create_temp_config ["[color]".data, "x = y".data] 3).filter
        isOutputHeader).length = 1 :=
  (create_temp_config_spec ["[color]".data, "x = y".data] 3).1

/-! ### Theorems: waveform bucketing (C3) -/

/-- The peak loop always pushes exactly one pair per requested bar. -/
theorem buildBuckets_length (raw : List ℕ) (nf : ℕ) (fpb : ℚ) :
    ∀ (count : ℕ) (idx : ℚ), (buildBuckets raw nf fpb count idx).length = count
  | 0, _ => rfl
  | k + 1, idx => by
    rw [buildBuckets, List.length_cons,
      buildBuckets_length raw nf fpb k (idx + fpb)]

/-- Closed form of the peak loop: bucket `k` starts at
`(idx + k * fpb) as usize` and ends at `(idx + (k+1) * fpb) as usize`,
clipped to the frame count. -/
theorem buildBuckets_get (raw : List ℕ) (nf : ℕ) (fpb : ℚ) :
    ∀ (count : ℕ) (idx : ℚ) (k : ℕ), k < count →
      (buildBuckets raw nf fpb count idx).get? k =
        some (bucketPair raw (floorNat (idx + (k : ℚ) * fpb))
          (min (floorNat (idx + ((k : ℚ) + 1) * fpb)) nf))
  | 0, _, k, hk => absurd hk (Nat.not_lt_zero k)
  | c + 1, idx, 0, _ => by
    have e1 : idx + ((0 : ℕ) : ℚ) * fpb = idx := by push_cast; ring
    have e2 : idx + (((0 : ℕ) : ℚ) + 1) * fpb = idx + fpb := by push_cast; ring
    rw [buildBuckets]
    show some _ = some _
    rw [e1, e2]
  | c + 1, idx, k + 1, hk => by
    rw [buildBuckets]
    show (buildBuckets raw nf fpb c (idx + fpb)).get? k = _
    rw [buildBuckets_get raw nf fpb c (idx + fpb) k (by omega)]
    have e1 : idx + fpb + (k : ℚ) * fpb = idx + ((k + 1 : ℕ) : ℚ) * fpb := by
      push_cast; ring
    have e2 : idx + fpb + ((k : ℚ) + 1) * fpb
        = idx + (((k + 1 : ℕ) : ℚ) + 1) * fpb := by
      push_cast; ring
    rw [e1, e2]

/-- The returned series always has one entry per requested bar. -/
theorem normalizePeaks_length (peaks : List (ℝ × ℝ)) :
    (normalizePeaks peaks).length = peaks.length := by
  rw [normalizePeaks]
  split
  · rw [List.length_map]
  · rfl

/-- C3 (amended): usable frames are `len / 4` and the series from a
successful extraction has exactly `numBars` entries; the frame sequence is
divided into `numBars` contiguous buckets by the floating-point stride
`max (frames / numBars) 1` — the code clamps the spec's `frames / numBars`
stride below by one frame — with bucket ends clipped to the frame count,
and each entry is the per-channel root-mean-square over its bucket's
frames; eight stereo frames with two requested bars yield exactly the two
buckets of four frames each. -/
theorem waveform_bucketing_spec :
    (∀ raw numBars s, from_file_model raw numBars = some s →
        s.length = numBars)
    ∧ (∀ (raw : List ℕ) (numBars k : ℕ), k < numBars →
        (meanSquares raw numBars).get? k =
          some (bucketPair raw
            (floorNat ((k : ℚ) * max (((raw.length / 4 : ℕ) : ℚ) / (numBars : ℚ)) 1))
            (min (floorNat (((k : ℚ) + 1) *
                max (((raw.length / 4 : ℕ) : ℚ) / (numBars : ℚ)) 1))
              (raw.length / 4))))
    ∧ (∀ (raw : List ℕ) (numBars k : ℕ), k < numBars →
        ∃ q, (meanSquares raw numBars).get? k = some q ∧
          (peaksPre raw numBars).get? k =
            some (Real.sqrt (q.1 : ℝ), Real.sqrt (q.2 : ℝ)))
    ∧ (∀ raw : List ℕ, raw.length = 32 →
        meanSquares raw 2 = [bucketPair raw 0 4, bucketPair raw 4 8]) := by
  refine ⟨?_, ?_, ?_, ?_⟩
  · intro raw numBars s hs
    by_cases hc : raw.length / 4 = 0 ∨ numBars = 0
    · rw [from_file_model] at hs
      simp only [if_pos hc] at hs
      cases hs
    · rw [from_file_model] at hs
      simp only [if_neg hc] at hs
      have hs' : normalizePeaks (peaksPre raw numBars) = s := Option.some.inj hs
      rw [← hs', normalizePeaks_length, peaksPre, List.length_map, meanSquares,
        buildBuckets_length]
  · intro raw numBars k hk
    rw [meanSquares, buildBuckets_get raw _ _ numBars 0 k hk]
    have e1 : (0 : ℚ) + (k : ℚ) * max (((raw.length / 4 : ℕ) : ℚ) / (numBars : ℚ)) 1
        = (k : ℚ) * max (((raw.length / 4 : ℕ) : ℚ) / (numBars : ℚ)) 1 := by ring
    have e2 : (0 : ℚ) + ((k : ℚ) + 1) * max (((raw.length / 4 : ℕ) : ℚ) / (numBars : ℚ)) 1
        = ((k : ℚ) + 1) * max (((raw.length / 4 : ℕ) : ℚ) / (numBars : ℚ)) 1 := by ring
    rw [e1, e2]
  · intro raw numBars k hk
    have hlen : (meanSquares raw numBars).length = numBars := by
      rw [meanSquares, buildBuckets_length]
    have hk' : k < (meanSquares raw numBars).length := by omega
    refine ⟨(meanSquares raw numBars).get ⟨k, hk'⟩, List.get?_eq_get hk', ?_⟩
    rw [peaksPre, List.get?_map, List.get?_eq_get hk']
    rfl
  · intro raw hlen
    have h4 : raw.length / 4 = 8 := by omega
    rw [meanSquares, h4]
    have hmax : max (((8 : ℕ) : ℚ) / ((2 : ℕ) : ℚ)) 1 = 4 := by
      rw [max_def]
      norm_num
    rw [hmax]
    rw [show (2 : ℕ) = 1 + 1 from rfl]
    rw [buildBuckets, buildBuckets, buildBuckets]
    have hf0 : floorNat 0 = 0 := by norm_num [floorNat, Int.toNat_ofNat] <;> try rfl
    have hf4 : floorNat (0 + 4) = 4 := by norm_num [floorNat, Int.toNat_ofNat] <;> try rfl
    have hf8 : floorNat (0 + 4 + 4) = 8 := by norm_num [floorNat, Int.toNat_ofNat] <;> try rfl
    rw [hf0, hf4, hf8]
    norm_num

/-- Witness for C3 at a concrete 32-byte decoder output with two bars. -/
theorem waveform_bucketing_spec_witness :
    meanSquares (List.replicate 32 1) 2
      = [bucketPair (List.replicate 32 1) 0 4,
         bucketPair (List.replicate 32 1) 4 8] :=
  waveform_bucketing_spec.2.2.2 (List.replicate 32 1) (by simp)

/-- C3 counterexample to the claim's `frames / n` stride: for a decoder
output of one frame (4 bytes, left sample `1`) and two requested bars, the
code's clamped stride puts the frame in the first bucket and leaves the
second empty, while the claim's stride `1/2` puts it in the second bucket:
the two mean-square series — and hence the RMS series — disagree. -/
theorem waveform_bucketing_counterexample :
    meanSquares [1, 0, 0, 0] 2 = [(1, 0), (0, 0)]
    ∧ claimStrideMeanSquares [1, 0, 0, 0] 2 = [(0, 0), (1, 0)]
    ∧ peaksPre [1, 0, 0, 0] 2 ≠ claimStridePeaks [1, 0, 0, 0] 2 := by
  have hs1 : sumSqL [1, 0, 0, 0] 0 1 = 1 := by
    have : sampleAbsL [1, 0, 0, 0] 0 = 1 := by decide
    norm_num [sumSqL, List.range', this]
  have hs2 : sumSqR [1, 0, 0, 0] 0 1 = 0 := by
    have : sampleAbsR [1, 0, 0, 0] 0 = 0 := by decide
    norm_num [sumSqR, List.range', this]
  have hb01 : bucketPair [1, 0, 0, 0] 0 1 = (1, 0) := by
    norm_num [bucketPair, hs1, hs2]
  have hb11 : bucketPair [1, 0, 0, 0] 1 1 = (0, 0) := by
    norm_num [bucketPair]
  have hb00 : bucketPair [1, 0, 0, 0] 0 0 = (0, 0) := by
    norm_num [bucketPair]
  have hcode : meanSquares [1, 0, 0, 0] 2 = [(1, 0), (0, 0)] := by
    rw [meanSquares]
    have h4 : [1, 0, 0, 0].length / 4 = 1 := by norm_num
    rw [h4]
    have hmax : max (((1 : ℕ) : ℚ) / ((2 : ℕ) : ℚ)) 1 = 1 := by
      rw [max_def]
      norm_num
    rw [hmax, show (2 : ℕ) = 1 + 1 from rfl, buildBuckets, buildBuckets,
      buildBuckets]
    have hf0 : floorNat 0 = 0 := by norm_num [floorNat, Int.toNat_ofNat] <;> try rfl
    have hf1 : floorNat (0 + 1) = 1 := by norm_num [floorNat, Int.toNat_ofNat] <;> try rfl
    have hf2 : floorNat (0 + 1 + 1) = 2 := by norm_num [floorNat, Int.toNat_ofNat] <;> try rfl
    rw [hf0, hf1, hf2]
    norm_num [hb01, hb11]
  have hclaim : claimStrideMeanSquares [1, 0, 0, 0] 2 = [(0, 0), (1, 0)] := by
    rw [claimStrideMeanSquares]
    have h4 : [1, 0, 0, 0].length / 4 = 1 := by norm_num
    rw [h4, show (2 : ℕ) = 1 + 1 from rfl, buildBuckets, buildBuckets,
      buildBuckets]
    have hf0 : floorNat 0 = 0 := by norm_num [floorNat, Int.toNat_ofNat] <;> try rfl
    have hfh : floorNat (0 + ((1 : ℕ) : ℚ) / ((2 : ℕ) : ℚ)) = 0 := by
      norm_num [floorNat, Int.toNat_ofNat] <;> try rfl
    have hf1 : floorNat (0 + ((1 : ℕ) : ℚ) / ((2 : ℕ) : ℚ)
        + ((1 : ℕ) : ℚ) / ((2 : ℕ) : ℚ)) = 1 := by
      norm_num [floorNat, Int.toNat_ofNat] <;> try rfl
    rw [hf0, hfh, hf1]
    norm_num [hb00, hb01]
  refine ⟨hcode, hclaim, ?_⟩
  intro hcon
  rw [peaksPre, claimStridePeaks, hcode, hclaim] at hcon
  have hhead : ((Real.sqrt ((1 : ℚ) : ℝ), Real.sqrt ((0 : ℚ) : ℝ)) : ℝ × ℝ)
      = (Real.sqrt ((0 : ℚ) : ℝ), Real.sqrt ((0 : ℚ) : ℝ)) := by
    have := congrArg (fun l => l.headI) hcon
    simpa using this
  have h1 : Real.sqrt ((1 : ℚ) : ℝ) = Real.sqrt ((0 : ℚ) : ℝ) :=
    congrArg Prod.fst hhead
  rw [show ((1 : ℚ) : ℝ) = 1 by norm_num, show ((0 : ℚ) : ℝ) = 0 by norm_num,
    Real.sqrt_one, Real.sqrt_zero] at h1
  exact one_ne_zero h1

/-! ### Theorems: waveform normalization (C2) -/

/-- Every pool entry is strictly positive. -/
theorem nonzeroPool_pos (peaks : List (ℝ × ℝ)) :
    ∀ v ∈ nonzeroPool peaks, 0 < v := by
  intro v hv
  rw [nonzeroPool] at hv
  exact of_decide_eq_true (List.mem_filter.mp hv).2

/-- The sorted pool is a permutation of the pool. -/
theorem sortedPool_perm (peaks : List (ℝ × ℝ)) :
    (sortedPool peaks).Perm (nonzeroPool peaks) :=
  List.perm_insertionSort _ _

/-- The sorted pool is sorted ascending. -/
theorem sortedPool_sorted (peaks : List (ℝ × ℝ)) :
    List.Sorted (· ≤ ·) (sortedPool peaks) :=
  List.sorted_insertionSort _ _

/-- The percentile index is in bounds for a nonempty pool. -/
theorem pctIdx_lt (peaks : List (ℝ × ℝ)) (h : nonzeroPool peaks ≠ []) :
    pctIdx (nonzeroPool peaks).length < (sortedPool peaks).length := by
  have hlen : (sortedPool peaks).length = (nonzeroPool peaks).length :=
    (sortedPool_perm peaks).length_eq
  have hpos : 0 < (nonzeroPool peaks).length := List.length_pos.mpr h
  have hle : pctIdx (nonzeroPool peaks).length
      ≤ (nonzeroPool peaks).length - 1 := min_le_right _ _
  omega

/-- The normalization reference is always strictly positive: it is `1.0`
for an empty pool and a positive pool element otherwise. -/
theorem normVal_pos (peaks : List (ℝ × ℝ)) : 0 < normVal peaks := by
  by_cases h : nonzeroPool peaks = []
  · rw [normVal, if_pos h]
    norm_num
  · rw [normVal, if_neg h]
    have hi := pctIdx_lt peaks h
    have hmem : (sortedPool peaks).getD (pctIdx (nonzeroPool peaks).length) 0
        ∈ sortedPool peaks := by
      rw [List.getD_eq_getElem?_getD, List.getElem?_eq_getElem hi,
        Option.getD_some]
      exact List.getElem_mem hi
    exact nonzeroPool_pos peaks _ ((sortedPool_perm peaks).mem_iff.mp hmem)

/-- The normalization pass is always the divide–clamp–power map (the
reference is always positive, so the guarded branch is always taken). -/
theorem normalizePeaks_eq_map (peaks : List (ℝ × ℝ)) :
    normalizePeaks peaks = peaks.map (fun p =>
      (min (p.1 / normVal peaks) 1 ^ (1.8 : ℝ),
       min (p.2 / normVal peaks) 1 ^ (1.8 : ℝ))) := by
  rw [normalizePeaks, if_pos (normVal_pos peaks)]

/-- Each normalized channel value lies in `[0, 1]` when the pre-normalized
magnitudes are nonnegative. -/
theorem normalizePeaks_bounds (peaks : List (ℝ × ℝ))
    (hnn : ∀ p ∈ peaks, 0 ≤ p.1 ∧ 0 ≤ p.2) :
    ∀ p ∈ normalizePeaks peaks,
      (0 ≤ p.1 ∧ p.1 ≤ 1) ∧ (0 ≤ p.2 ∧ p.2 ≤ 1) := by
  intro p hp
  rw [normalizePeaks_eq_map] at hp
  obtain ⟨q, hq, rfl⟩ := List.mem_map.mp hp
  obtain ⟨hq1, hq2⟩ := hnn q hq
  have hnv := normVal_pos peaks
  have base : ∀ x : ℝ, 0 ≤ x →
      0 ≤ min (x / normVal peaks) 1 ^ (1.8 : ℝ) ∧
      min (x / normVal peaks) 1 ^ (1.8 : ℝ) ≤ 1 := by
    intro x hx
    have h0 : 0 ≤ min (x / normVal peaks) 1 :=
      le_min (div_nonneg hx hnv.le) zero_le_one
    have h1 : min (x / normVal peaks) 1 ≤ 1 := min_le_right _ _
    exact ⟨Real.rpow_nonneg h0 _, Real.rpow_le_one h0 h1 (by norm_num)⟩
  exact ⟨base q.1 hq1, base q.2 hq2⟩

/-- With an empty pool all magnitudes are zero (given nonnegativity) and
the normalization pass leaves them at zero. -/
theorem normalizePeaks_empty_pool (peaks : List (ℝ × ℝ))
    (hnn : ∀ p ∈ peaks, 0 ≤ p.1 ∧ 0 ≤ p.2)
    (h : nonzeroPool peaks = []) :
    normalizePeaks peaks = peaks ∧ ∀ p ∈ peaks, p.1 = 0 ∧ p.2 = 0 := by
  have hzero : ∀ p ∈ peaks, p.1 = 0 ∧ p.2 = 0 := by
    intro p hp
    obtain ⟨h1, h2⟩ := hnn p hp
    have hmem : ∀ v : ℝ, (v = p.1 ∨ v = p.2) → 0 < v → False := by
      intro v hv hpos
      have hin : v ∈ nonzeroPool peaks := by
        rw [nonzeroPool]
        refine List.mem_filter.mpr ⟨?_, by simp [hpos]⟩
        refine List.mem_flatten.mpr ⟨[p.1, p.2], List.mem_map_of_mem _ hp, ?_⟩
        rcases hv with rfl | rfl <;> simp
      rw [h] at hin
      exact absurd hin (List.not_mem_nil v)
    constructor
    · by_contra hne
      exact hmem p.1 (Or.inl rfl) (lt_of_le_of_ne h1 (Ne.symm hne))
    · by_contra hne
      exact hmem p.2 (Or.inr rfl) (lt_of_le_of_ne h2 (Ne.symm hne))
  refine ⟨?_, hzero⟩
  have hnv : normVal peaks = 1 := by rw [normVal, if_pos h]
  rw [normalizePeaks_eq_map]
  have hid : ∀ p ∈ peaks, (fun p : ℝ × ℝ =>
      (min (p.1 / normVal peaks) 1 ^ (1.8 : ℝ),
       min (p.2 / normVal peaks) 1 ^ (1.8 : ℝ))) p = id p := by
    intro p hp
    obtain ⟨a, b⟩ := p
    obtain ⟨h1, h2⟩ := hzero (a, b) hp
    simp only at h1 h2
    subst h1
    subst h2
    have hmin : min ((0 : ℝ) / normVal peaks) 1 = 0 := by
      rw [zero_div]
      exact min_eq_left zero_le_one
    simp only [hmin, id_eq, Prod.mk.injEq]
    constructor <;> exact Real.zero_rpow (by norm_num)
  rw [List.map_congr_left hid, List.map_id]

/-- C2: for every waveform extraction whose nonzero-magnitude pool is
nonempty, the normalization reference is the ascending-sorted pool's value
at the 95th-percentile rank, every magnitude is divided by it, clamped to
`1.0` and raised to the power `1.8`, and every post-normalization value
lies in `[0, 1]` (also for the full extraction pipeline); with an empty
pool (silent file) all magnitudes are zero and stay zero. -/
theorem waveform_normalization_spec (peaks : List (ℝ × ℝ))
    (hnn : ∀ p ∈ peaks, 0 ≤ p.1 ∧ 0 ≤ p.2) :
    (nonzeroPool peaks ≠ [] →
        normVal peaks
            = (sortedPool peaks).getD (pctIdx (nonzeroPool peaks).length) 0
          ∧ pctIdx (nonzeroPool peaks).length < (sortedPool peaks).length
          ∧ List.Sorted (· ≤ ·) (sortedPool peaks)
          ∧ (sortedPool peaks).Perm (nonzeroPool peaks))
    ∧ normalizePeaks peaks = peaks.map (fun p =>
        (min (p.1 / normVal peaks) 1 ^ (1.8 : ℝ),
         min (p.2 / normVal peaks) 1 ^ (1.8 : ℝ)))
    ∧ (∀ p ∈ normalizePeaks peaks,
        (0 ≤ p.1 ∧ p.1 ≤ 1) ∧ (0 ≤ p.2 ∧ p.2 ≤ 1))
    ∧ (nonzeroPool peaks = [] →
        normalizePeaks peaks = peaks ∧ ∀ p ∈ peaks, p.1 = 0 ∧ p.2 = 0)
    ∧ (∀ (raw : List ℕ) (n : ℕ) (s : List (ℝ × ℝ)),
        from_file_model raw n = some s →
        ∀ p ∈ s, (0 ≤ p.1 ∧ p.1 ≤ 1) ∧ (0 ≤ p.2 ∧ p.2 ≤ 1)) := by
  refine ⟨?_, normalizePeaks_eq_map peaks, normalizePeaks_bounds peaks hnn,
    normalizePeaks_empty_pool peaks hnn, ?_⟩
  · intro h
    exact ⟨by rw [normVal, if_neg h], pctIdx_lt peaks h,
      sortedPool_sorted peaks, sortedPool_perm peaks⟩
  · intro raw n s hs
    by_cases hc : raw.length / 4 = 0 ∨ n = 0
    · rw [from_file_model] at hs
      simp only [if_pos hc] at hs
      cases hs
    · rw [from_file_model] at hs
      simp only [if_neg hc] at hs
      have hs' : normalizePeaks (peaksPre raw n) = s := Option.some.inj hs
      rw [← hs']
      apply normalizePeaks_bounds
      intro p hp
      rw [peaksPre] at hp
      obtain ⟨q, _, rfl⟩ := List.mem_map.mp hp
      exact ⟨Real.sqrt_nonneg _, Real.sqrt_nonneg _⟩

/-- Witness for C2 at the one-pair series `[(1, 0)]`, whose pool `[1]` is
nonempty. -/
theorem waveform_normalization_spec_witness :
    normVal [((1 : ℝ), (0 : ℝ))]
      = (sortedPool [((1 : ℝ), (0 : ℝ))]).getD
          (pctIdx (nonzeroPool [((1 : ℝ), (0 : ℝ))]).length) 0 :=
  ((waveform_normalization_spec [((1 : ℝ), (0 : ℝ))] (by norm_num)).1
    (by norm_num [nonzeroPool, List.filter_cons])).1

end Bard
